import Mathlib

/-!
Verification of the time-gated secret schedule engine.

The engine (interval normalization, schedule parsing, point-in-time
visibility, historical hidden-period scan, display formatting) is a pure
JavaScript module; it is embedded here shallowly:

* JS numbers appearing in intervals are modelled as `Option Int`, with
  `none` standing for `NaN` (every comparison against `NaN` is false in
  JS, which the `js*` helpers reproduce).
* The luxon time library is an external dependency; a timezone is
  modelled abstractly as a validity flag plus a wall-clock conversion
  from a UTC instant (an integer count of minutes) to local weekday
  (luxon convention Monday=1 .. Sunday=7), hour and minute, with the
  ranges a real calendar conversion satisfies.  An invalid zone makes
  every converted field `NaN` in luxon; the definitions below reproduce
  the consequences of that at each use site.
* Instants are minutes since an arbitrary UTC epoch; the engine only
  ever samples and diffs at whole-minute granularity.
-/

namespace Sched

/-- A visibility interval as stored in a schedule; in the source the
fields are JS numbers `start` and `end` (`end` is a Lean keyword, so the
second field is named `stop`).  `none` models `NaN`. -/
structure Interval where
  start : Option Int
  stop : Option Int
deriving DecidableEq, Repr

/-- JS `<` on possibly-NaN numbers: false whenever an operand is NaN. -/
def jsLt : Option Int → Option Int → Bool
  | some a, some b => a < b
  | _, _ => false

/-- JS `>` on possibly-NaN numbers. -/
def jsGt (a b : Option Int) : Bool := jsLt b a

/-- JS `>=` on possibly-NaN numbers: false whenever an operand is NaN. -/
def jsGe : Option Int → Option Int → Bool
  | some a, some b => b ≤ a
  | _, _ => false

/-- JS `Math.max`: NaN-propagating. -/
def jsMax : Option Int → Option Int → Option Int
  | some a, some b => some (max a b)
  | _, _ => none

/-- JS `Math.min`: NaN-propagating. -/
def jsMin : Option Int → Option Int → Option Int
  | some a, some b => some (min a b)
  | _, _ => none

/-- The comparator `(a, b) => a.start - b.start` passed to the stable JS
`Array.prototype.sort`, as a boolean "a may come before b" relation.  By
the time the sort runs every `start` is a number (the preceding filter
discarded NaN), so the `none` arms are unreachable; they are fixed so
that the relation is a total preorder. -/
def sortLe (a b : Interval) : Bool :=
  match a.start, b.start with
  | some x, some y => x ≤ y
  | none, _ => true
  | some _, none => false

/-- One step of the merge loop of `normalizeIntervals`.  The JS loop
pushes onto the end of `merged` and mutates its last element; here the
accumulator is kept reversed, so its head is the JS `last`. -/
def mergeInto (merged : List Interval) (iv : Interval) : List Interval :=
  match merged with
  | [] => [iv]
  | last :: rest =>
    if jsGt iv.start last.stop then iv :: last :: rest
    else ⟨last.start, jsMax last.stop iv.stop⟩ :: rest

/-- The `sorted` local of `normalizeIntervals`: keep proper ranges,
clamp to [0, 1440], drop what the clamp degenerated, sort by start.
The source's `typeof iv.start === 'number'` checks always hold in this
typed model (NaN is a JS number); the `iv.start < iv.end` filters are
false on NaN, so NaN entries are discarded exactly as in JS. -/
def sortedClamped (intervals : List Interval) : List Interval :=
  (((intervals.filter (fun iv => jsLt iv.start iv.stop)).map
        (fun iv => ⟨jsMax (some 0) iv.start, jsMin (some 1440) iv.stop⟩)).filter
      (fun iv => jsLt iv.start iv.stop)).mergeSort sortLe

def normalizeIntervals (intervals : List Interval) : List Interval :=
  ((sortedClamped intervals).foldl mergeInto []).reverse

/-- Local wall-clock time produced by luxon's zone conversion:
`weekday` is Monday=1 .. Sunday=7. -/
structure LocalTime where
  weekday : Nat
  hour : Nat
  minute : Nat

/-- An IANA timezone as the engine observes it through luxon: either
invalid (every DateTime set to it is invalid, all fields NaN), or a
conversion from UTC instants (minutes since epoch) to local wall-clock
fields lying in the ranges a calendar conversion satisfies. -/
structure Zone where
  valid : Bool
  localize : Int → LocalTime
  wf : ∀ t, 1 ≤ (localize t).weekday ∧ (localize t).weekday ≤ 7 ∧
      (localize t).hour ≤ 23 ∧ (localize t).minute ≤ 59

/-- A canonical schedule.  `windowsPerDay` is a JS object keyed by
weekday index; lookup of an absent key yields `undefined`, modelled by
`none`. -/
structure Schedule where
  version : Int
  windowsPerDay : Nat → Option (List Interval)

/-- `isSecretVisibleNow`, with the ambient `DateTime.now()` made an
explicit argument `now`.  `DateTime.now().setZone(timezone)` is valid
iff the zone is valid. -/
def isSecretVisibleNow (schedule : Schedule) (z : Zone) (now : Int) : Bool :=
  if !z.valid then false
  else
    let lt := z.localize now
    let day := lt.weekday % 7
    let dayIndex := if day = 0 then 0 else day
    let minutes : Int := lt.hour * 60 + lt.minute
    let intervals := (schedule.windowsPerDay dayIndex).getD []
    intervals.any (fun iv => jsGe (some minutes) iv.start && jsLt (some minutes) iv.stop)

/-- The per-sample visibility test inside the scan loop of
`hasEverEnteredHiddenSinceCreation` (the body computing `visible`).
When the zone is invalid, `ts.setZone(timezone)` is invalid, so
`weekday`, `hour`, `minute` are NaN: the day index is NaN, the
`windowsPerDay` lookup misses (`|| []`), and `visible` stays false —
hence the `false` arm. -/
def sampleVisible (schedule : Schedule) (z : Zone) (t : Int) : Bool :=
  if z.valid then
    let lt := z.localize t
    let day := lt.weekday % 7
    let dayIndex := if day = 0 then 0 else day
    let minutes : Int := lt.hour * 60 + lt.minute
    let intervals := (schedule.windowsPerDay dayIndex).getD []
    intervals.any (fun iv => jsGe (some minutes) iv.start && jsLt (some minutes) iv.stop)
  else false

/-- The fallback check at the end of the scan: all seven days reduce to
exactly the single interval [0, 1440). -/
def alwaysVisibleAllWeek (schedule : Schedule) : Bool :=
  (List.range 7).all (fun d =>
    match (schedule.windowsPerDay d).getD [] with
    | [iv] => iv.start == some 0 && iv.stop == some 1440
    | _ => false)

/-- `hasEverEnteredHiddenSinceCreation`, with `DateTime.utc()` made an
explicit argument `nowUtc` and `createdAtIso` an instant `createdAt`.
The loop `for i = 0; i <= maxScanMinutes` returns true at the first
non-visible sample, i.e. iff some sample in the range is not visible;
after a fully-visible scan both remaining paths return false, as in the
source. -/
def hasEverEnteredHiddenSinceCreation (createdAt : Int) (schedule : Schedule)
    (z : Zone) (nowUtc : Int) : Bool :=
  let maxScanMinutes : Nat := (min (14 * 24 * 60) (max 0 (nowUtc - createdAt))).toNat
  if (List.range (maxScanMinutes + 1)).any
      (fun i => !sampleVisible schedule z (createdAt + i)) then
    true
  else if alwaysVisibleAllWeek schedule then false
  else false

/-- JS `String.prototype.split(':')` on the character list of a string:
the text between consecutive colons, in order (never empty — splitting
the empty string yields one empty piece). -/
def splitColonAux (cs : List Char) (acc : List Char) : List (List Char) :=
  match cs with
  | [] => [acc.reverse]
  | c :: rest =>
    if c = ':' then acc.reverse :: splitColonAux rest []
    else splitColonAux rest (c :: acc)

/-- Leading decimal digits of a character list. -/
def takeDigits : List Char → List Nat
  | [] => []
  | c :: cs => if c.isDigit then (c.toNat - 48) :: takeDigits cs else []

/-- The numeric value of a digit list read left to right. -/
def digitsValue (ds : List Nat) : Nat :=
  ds.foldl (fun a d => a * 10 + d) 0

/-- The digit run (after an optional sign) as a number, `none` when the
run is empty. -/
def parseDigits (cs : List Char) : Option Nat :=
  let ds := takeDigits cs
  if ds.isEmpty then none else some (digitsValue ds)

/-- JS `parseInt(v, 10)`: skip leading whitespace, optional sign, then
leading decimal digits; `none` models the NaN result when no digit
follows. -/
def jsParseInt (s : String) : Option Int :=
  match s.data.dropWhile Char.isWhitespace with
  | [] => none
  | c :: rest =>
    if c = '-' then (parseDigits rest).map (fun n => -(n : Int))
    else if c = '+' then (parseDigits rest).map (fun n => (n : Int))
    else (parseDigits (c :: rest)).map (fun n => (n : Int))

/-- The three observable results of `hhmmToMinutes`: the JS `null`
sentinel, the NaN number that leaks out when the minute component is
absent, or an integer minute count. -/
inductive HM where
  | null : HM
  | nan : HM
  | val : Int → HM
deriving DecidableEq, Repr

/-- The number carried by a non-null `hhmmToMinutes` result (`none` is
NaN), as it is pushed into an interval. -/
def HM.toNum : HM → Option Int
  | HM.null => none
  | HM.nan => none
  | HM.val v => some v

/-- `hhmmToMinutes`.  When the string has no colon, the destructuring
`[h, m]` leaves `m` undefined: `Number.isNaN(undefined)` is false and
every range comparison on `undefined` is false, so the function then
returns `h*60 + undefined = NaN` (not null) whenever `h` itself is a
number in [0, 23]. -/
def hhmmToMinutes (hhmm : String) : HM :=
  match splitColonAux hhmm.data [] with
  | [] => HM.null
  | [p0] =>
    match jsParseInt (String.mk p0) with
    | none => HM.null
    | some h => if h < 0 || h > 23 then HM.null else HM.nan
  | p0 :: p1 :: _ =>
    match jsParseInt (String.mk p0), jsParseInt (String.mk p1) with
    | none, _ => HM.null
    | some _, none => HM.null
    | some h, some m =>
      if h < 0 || h > 23 || m < 0 || m > 59 then HM.null
      else HM.val (h * 60 + m)

def DAY_NAMES : List String :=
  ["Sunday", "Monday", "Tuesday", "Wednesday", "Thursday", "Friday", "Saturday"]

/-- The message of the `Invalid time for ... interval ...` error. -/
def invalidTimeMsg (d r : Nat) : String :=
  "Invalid time for " ++ DAY_NAMES.getD d "" ++ " interval " ++ toString r ++ "."

/-- The message of the `... start must be before end` error. -/
def invalidIntervalMsg (d r : Nat) : String :=
  DAY_NAMES.getD d "" ++ " interval " ++ toString r ++ " start must be before end."

/-- The raw request body as the parser reads it: the `dX_all_day`
checkbox and the `dX_rY_start` / `dX_rY_end` text fields.  An absent or
empty field is the empty string (both are falsy under `if (s && e)`). -/
structure RawBody where
  allDay : Nat → Bool
  slotStart : Nat → Nat → String
  slotEnd : Nat → Nat → String

/-- One iteration of the inner `for (r = 1; r <= 3)` loop of
`parseScheduleFromBody`: skip an unsupplied slot, raise on a null
component or an out-of-order numeric pair, otherwise append the
interval. -/
def parseSlot (body : RawBody) (d r : Nat) (acc : List Interval) :
    Except String (List Interval) :=
  let s := body.slotStart d r
  let e := body.slotEnd d r
  if s ≠ "" && e ≠ "" then
    let sm := hhmmToMinutes s
    let em := hhmmToMinutes e
    if sm == HM.null || em == HM.null then Except.error (invalidTimeMsg d r)
    else if jsGe sm.toNum em.toNum then Except.error (invalidIntervalMsg d r)
    else Except.ok (acc ++ [⟨sm.toNum, em.toNum⟩])
  else Except.ok acc

/-- The per-day body of `parseScheduleFromBody`: the all-day flag
short-circuits to [0, 1440), otherwise the three slots are read in
order. -/
def parseDay (body : RawBody) (d : Nat) : Except String (List Interval) :=
  if body.allDay d then Except.ok [⟨some 0, some 1440⟩]
  else do
    let a1 ← parseSlot body d 1 []
    let a2 ← parseSlot body d 2 a1
    parseSlot body d 3 a2

/-- `parseScheduleFromBody`: seven days, each normalized, assembled into
`windowsPerDay` keyed 0..6 (any other key is absent). -/
def parseScheduleFromBody (body : RawBody) : Except String Schedule := do
  let days ← (List.range 7).mapM (fun d => (parseDay body d).map normalizeIntervals)
  pure ⟨1, fun d => days.get? d⟩

/-- JS `String(h).padStart(2, '0')`. -/
def padStart2 (s : String) : String :=
  if s.length < 2 then String.mk (List.replicate (2 - s.length) '0') ++ s else s

/-- `minutesToHHMM` on a possibly-NaN minute count.  `Math.floor(m/60)`
is floor division and `m % 60` keeps the dividend's sign; on NaN both
render as the three-character string `NaN`, which `padStart` leaves
alone. -/
def minutesToHHMM (mins : Option Int) : String :=
  match mins with
  | some v => padStart2 (toString (Int.fdiv v 60)) ++ ":" ++ padStart2 (toString (Int.tmod v 60))
  | none => "NaN:NaN"

/-- A formatted interval of a display row. -/
structure DisplayInterval where
  start : String
  stop : String
deriving DecidableEq, Repr

/-- A display row of `scheduleToDisplayRows`. -/
structure DisplayRow where
  dayIndex : Nat
  dayName : String
  intervals : List DisplayInterval
deriving DecidableEq, Repr

/-- `scheduleToDisplayRows`: the seven weekday rows in order, intervals
formatted back to HH:MM text. -/
def scheduleToDisplayRows (schedule : Schedule) : List DisplayRow :=
  (List.range 7).map (fun d =>
    let intervals := (schedule.windowsPerDay d).getD []
    ⟨d, DAY_NAMES.getD d "",
      intervals.map (fun iv => ⟨minutesToHHMM iv.start, minutesToHHMM iv.stop⟩)⟩)

/-! ### Helper notions used by the statements -/

/-- The weekday index the engine computes for instant `t`:
`now.weekday % 7`, with the redundant `day === 0 ? 0 : day` step. -/
def dayIndexAt (z : Zone) (t : Int) : Nat :=
  let day := (z.localize t).weekday % 7
  if day = 0 then 0 else day

/-- The engine's minutes-since-local-midnight at instant `t`. -/
def localMinutes (z : Zone) (t : Int) : Int :=
  ((z.localize t).hour : Int) * 60 + ((z.localize t).minute : Int)

/-- A valid zone whose conversion is the constant wall clock
(weekday, hour, minute); arguments are clamped into calendar range so
the construction is total. -/
def clockZone (wd h m : Nat) : Zone :=
  ⟨true, fun _ => ⟨min 7 (max 1 wd), min 23 h, min 59 m⟩, fun _ => by dsimp only; omega⟩

/-- An invalid zone (a non-IANA name such as `Not/AZone`). -/
def invalidZone : Zone :=
  ⟨false, fun _ => ⟨1, 0, 0⟩, fun _ => by dsimp only; omega⟩

/-- A schedule whose seven days each hold the single window 13:00-17:00
(minutes 780-1020). -/
def boundarySched : Schedule :=
  ⟨1, fun d => if d < 7 then some [⟨some 780, some 1020⟩] else none⟩

/-- The same schedule with every absent `windowsPerDay` key replaced by
an explicitly empty interval sequence. -/
def emptyFilled (s : Schedule) : Schedule :=
  ⟨s.version, fun d => some ((s.windowsPerDay d).getD [])⟩

/-! ### C1: point-in-time visibility -/

/-- C1: for every schedule, valid zone and instant, `isSecretVisibleNow`
is true iff some interval of the local weekday (index
`weekday % 7`, Sunday=0) contains `localHour*60 + localMinute` under the
half-open comparison `start ≤ minutes < end`; and on the window
780-1020, local 13:00 and 16:59 are visible while 12:59 and 17:00 are
not. -/
theorem isSecretVisibleNow_iff_interval_contains :
    (∀ (schedule : Schedule) (z : Zone) (now : Int), z.valid = true →
      (isSecretVisibleNow schedule z now = true ↔
        ∃ iv ∈ (schedule.windowsPerDay (dayIndexAt z now)).getD [],
          ∃ a b : Int, iv.start = some a ∧ iv.stop = some b ∧
            a ≤ localMinutes z now ∧ localMinutes z now < b)) ∧
    isSecretVisibleNow boundarySched (clockZone 2 13 0) 0 = true ∧
    isSecretVisibleNow boundarySched (clockZone 2 12 59) 0 = false ∧
    isSecretVisibleNow boundarySched (clockZone 2 16 59) 0 = true ∧
    isSecretVisibleNow boundarySched (clockZone 2 17 0) 0 = false := by
  refine ⟨?_, by decide, by decide, by decide, by decide⟩
  intro schedule z now hz
  simp only [isSecretVisibleNow, hz, Bool.not_true, Bool.false_eq_true, if_false,
    List.any_eq_true, Bool.and_eq_true, dayIndexAt, localMinutes]
  constructor
  · rintro ⟨iv, hmem, hge, hlt⟩
    refine ⟨iv, hmem, ?_⟩
    cases hs : iv.start with
    | none => rw [hs] at hge; simp [jsGe] at hge
    | some a =>
      cases ht : iv.stop with
      | none => rw [ht] at hlt; simp [jsLt] at hlt
      | some b =>
        rw [hs] at hge; rw [ht] at hlt
        simp only [jsGe, jsLt, decide_eq_true_eq] at hge hlt
        exact ⟨a, b, rfl, rfl, hge, hlt⟩
  · rintro ⟨iv, hmem, a, b, hs, ht, hge, hlt⟩
    refine ⟨iv, hmem, ?_, ?_⟩
    · rw [hs]; simpa [jsGe]
    · rw [ht]; simpa [jsLt]

/-- Closed instance of C1's quantified part. -/
theorem isSecretVisibleNow_iff_interval_contains_witness :
    isSecretVisibleNow boundarySched (clockZone 2 13 0) 0 = true ↔
      ∃ iv ∈ (boundarySched.windowsPerDay (dayIndexAt (clockZone 2 13 0) 0)).getD [],
        ∃ a b : Int, iv.start = some a ∧ iv.stop = some b ∧
          a ≤ localMinutes (clockZone 2 13 0) 0 ∧ localMinutes (clockZone 2 13 0) 0 < b :=
  isSecretVisibleNow_iff_interval_contains.1 boundarySched (clockZone 2 13 0) 0 rfl

/-! ### C4: invalid zone is fail-safe for visibility -/

/-- C4: with an invalid timezone, `isSecretVisibleNow` returns `false`
for every schedule and instant. -/
theorem isSecretVisibleNow_invalid_zone_false (schedule : Schedule) (z : Zone)
    (now : Int) (h : z.valid = false) :
    isSecretVisibleNow schedule z now = false := by
  simp [isSecretVisibleNow, h]

/-- Closed instance of C4 at a concrete schedule and invalid zone. -/
theorem isSecretVisibleNow_invalid_zone_false_witness :
    isSecretVisibleNow boundarySched invalidZone 0 = false :=
  isSecretVisibleNow_invalid_zone_false boundarySched invalidZone 0 rfl

/-! ### C9: invalid zone immediately counts as hidden in the scan -/

/-- C9: with an invalid timezone, `hasEverEnteredHiddenSinceCreation`
returns `true` for every creation instant, schedule and now: the very
first sampled minute converts to an invalid local time whose NaN
weekday/minute match no interval, so it is counted hidden. -/
theorem hasEver_invalid_zone_true (createdAt : Int) (schedule : Schedule) (z : Zone)
    (nowUtc : Int) (h : z.valid = false) :
    hasEverEnteredHiddenSinceCreation createdAt schedule z nowUtc = true := by
  simp only [hasEverEnteredHiddenSinceCreation]
  rw [if_pos]
  rw [List.any_eq_true]
  exact ⟨0, List.mem_range.mpr (Nat.succ_pos _), by simp [sampleVisible, h]⟩

/-- Closed instance of C9. -/
theorem hasEver_invalid_zone_true_witness :
    hasEverEnteredHiddenSinceCreation 0 boundarySched invalidZone 100 = true :=
  hasEver_invalid_zone_true 0 boundarySched invalidZone 100 rfl

/-! ### C10: a missing weekday key behaves as an empty sequence -/

/-- C10: both evaluators are unchanged when every absent `windowsPerDay`
key is replaced by an explicitly empty interval sequence: a missing day
key is treated exactly like an empty day (no interval can match, so that
minute is not visible), and both functions are total. -/
theorem missing_day_key_as_empty (s : Schedule) (z : Zone) (now createdAt nowUtc : Int) :
    isSecretVisibleNow s z now = isSecretVisibleNow (emptyFilled s) z now ∧
    hasEverEnteredHiddenSinceCreation createdAt s z nowUtc
      = hasEverEnteredHiddenSinceCreation createdAt (emptyFilled s) z nowUtc := by
  have hw : ∀ d, ((emptyFilled s).windowsPerDay d).getD [] = (s.windowsPerDay d).getD [] := by
    intro d; rfl
  constructor
  · simp only [isSecretVisibleNow, emptyFilled, Option.getD_some]
  · simp only [hasEverEnteredHiddenSinceCreation, sampleVisible, alwaysVisibleAllWeek,
      emptyFilled, Option.getD_some]

/-! ### C2: the scan is exactly a bounded existential over sampled minutes -/

/-- C2: for `now ≥ createdAt`, the scanner returns `true` iff some
sampled minute `createdAt + i` with `i ≤ min(14*24*60, now - createdAt)`
is not visible under the schedule in the zone. -/
theorem hasEver_iff_sampled_minute_hidden (createdAt : Int) (schedule : Schedule)
    (z : Zone) (nowUtc : Int) (h : createdAt ≤ nowUtc) :
    (hasEverEnteredHiddenSinceCreation createdAt schedule z nowUtc = true ↔
      ∃ i : Nat, (i : Int) ≤ min (14 * 24 * 60) (nowUtc - createdAt) ∧
        sampleVisible schedule z (createdAt + i) = false) := by
  simp only [hasEverEnteredHiddenSinceCreation]
  have hmax : max 0 (nowUtc - createdAt) = nowUtc - createdAt := by omega
  rw [hmax]
  constructor
  · intro hres
    by_cases hany : (List.range ((min (14 * 24 * 60) (nowUtc - createdAt)).toNat + 1)).any
        (fun i => !sampleVisible schedule z (createdAt + i)) = true
    · rw [List.any_eq_true] at hany
      obtain ⟨i, hi, hvi⟩ := hany
      rw [List.mem_range] at hi
      refine ⟨i, ?_, ?_⟩
      · omega
      · simpa using hvi
    · rw [if_neg hany] at hres
      by_cases halw : alwaysVisibleAllWeek schedule = true <;> simp [halw] at hres
  · rintro ⟨i, hi, hvi⟩
    rw [if_pos]
    rw [List.any_eq_true]
    refine ⟨i, List.mem_range.mpr ?_, by simp [hvi]⟩
    omega

/-- Closed instance of C2: an empty schedule with a valid zone is hidden
at the first sampled minute. -/
theorem hasEver_iff_sampled_minute_hidden_witness :
    hasEverEnteredHiddenSinceCreation 0 ⟨1, fun _ => none⟩ (clockZone 2 13 0) 5 = true ↔
      ∃ i : Nat, (i : Int) ≤ min (14 * 24 * 60) (5 - 0) ∧
        sampleVisible ⟨1, fun _ => none⟩ (clockZone 2 13 0) (0 + i) = false :=
  hasEver_iff_sampled_minute_hidden 0 ⟨1, fun _ => none⟩ (clockZone 2 13 0) 5 (by omega)

/-! ### C5 and C6: normalization invariants and idempotence -/

/-- Separation of two intervals: the first ends strictly before the
second starts (under JS comparison, so false on NaN). -/
def sepB (a b : Interval) : Bool := jsLt a.stop b.start

/-- A canonical normalized interval: integer endpoints, clamped range,
proper. -/
def canonIvl (iv : Interval) : Prop :=
  ∃ a b : Int, iv.start = some a ∧ iv.stop = some b ∧ 0 ≤ a ∧ a < b ∧ b ≤ 1440

theorem jsLt_eq_true_iff (x y : Option Int) :
    jsLt x y = true ↔ ∃ a b : Int, x = some a ∧ y = some b ∧ a < b := by
  cases x <;> cases y <;> simp [jsLt]

theorem sepB_trans_mid {a b c : Interval} (hab : sepB a b = true) (hbc : sepB b c = true)
    (hb : jsLt b.start b.stop = true) : sepB a c = true := by
  unfold sepB at hab hbc ⊢
  rw [jsLt_eq_true_iff] at hab hbc hb ⊢
  obtain ⟨p, s, hap, hbs, hps⟩ := hab
  obtain ⟨t, q, hbt, hcq, htq⟩ := hbc
  obtain ⟨s2, t2, hbs2, hbt2, hst⟩ := hb
  rw [hbs] at hbs2
  rw [hbt] at hbt2
  injection hbs2 with e1
  injection hbt2 with e2
  exact ⟨p, q, hap, hcq, by omega⟩

theorem sepB_head : ∀ (l : List Interval) (x : Interval),
    List.Chain' (fun u v => sepB u v = true) (x :: l) →
    (∀ iv ∈ l, jsLt iv.start iv.stop = true) →
    ∀ y ∈ l, sepB x y = true := by
  intro l
  induction l with
  | nil => intro x _ _ y hy; simp at hy
  | cons z l ih =>
    intro x hc hel y hy
    have hxz : sepB x z = true := (List.chain'_cons.mp hc).1
    rcases List.mem_cons.mp hy with h | h
    · subst h; exact hxz
    · have hz : jsLt z.start z.stop = true := hel z (List.mem_cons_self z l)
      have hzy := ih z (List.chain'_cons.mp hc).2
        (fun iv hiv => hel iv (List.mem_cons_of_mem _ hiv)) y h
      exact sepB_trans_mid hxz hzy hz

theorem chain'_sepB_pairwise : ∀ (l : List Interval),
    List.Chain' (fun u v => sepB u v = true) l →
    (∀ iv ∈ l, jsLt iv.start iv.stop = true) →
    List.Pairwise (fun u v => sepB u v = true) l := by
  intro l
  induction l with
  | nil => intro _ _; exact List.Pairwise.nil
  | cons x l ih =>
    intro hc hel
    rw [List.pairwise_cons]
    exact ⟨sepB_head l x hc (fun iv h => hel iv (List.mem_cons_of_mem _ h)),
      ih hc.tail (fun iv h => hel iv (List.mem_cons_of_mem _ h))⟩

theorem foldl_mergeInto_canon : ∀ (xs acc : List Interval),
    List.Chain' (fun u v => sepB v u = true) acc →
    (∀ iv ∈ acc, canonIvl iv) →
    (∀ iv ∈ xs, canonIvl iv) →
    List.Chain' (fun u v => sepB v u = true) (xs.foldl mergeInto acc) ∧
    (∀ iv ∈ xs.foldl mergeInto acc, canonIvl iv) := by
  intro xs
  induction xs with
  | nil => intro acc hc hel _; exact ⟨hc, hel⟩
  | cons x xs ih =>
    intro acc hc hel hxs
    have hx : canonIvl x := hxs x (List.mem_cons_self x xs)
    have hxs' : ∀ iv ∈ xs, canonIvl iv := fun iv h => hxs iv (List.mem_cons_of_mem _ h)
    rw [List.foldl_cons]
    cases acc with
    | nil =>
      refine ih [x] (List.chain'_singleton x) ?_ hxs'
      intro iv h
      rw [List.mem_singleton] at h
      subst h
      exact hx
    | cons last rest =>
      by_cases hgt : jsGt x.start last.stop = true
      · have hm : mergeInto (last :: rest) x = x :: last :: rest := by
          simp [mergeInto, hgt]
        rw [hm]
        refine ih _ (List.chain'_cons.mpr ⟨hgt, hc⟩) ?_ hxs'
        intro iv h
        rcases List.mem_cons.mp h with h' | h'
        · subst h'; exact hx
        · exact hel iv h'
      · have hm : mergeInto (last :: rest) x = ⟨last.start, jsMax last.stop x.stop⟩ :: rest := by
          simp [mergeInto, hgt]
        rw [hm]
        obtain ⟨a, b, hla, hlb, h0a, hab, hb14⟩ := hel last (List.mem_cons_self last rest)
        obtain ⟨c, d, hxc, hxd, h0c, hcd, hd14⟩ := hx
        have hcanon : canonIvl (⟨last.start, jsMax last.stop x.stop⟩ : Interval) := by
          refine ⟨a, max b d, hla, ?_, h0a, ?_, ?_⟩
          · show jsMax last.stop x.stop = some (max b d)
            rw [hlb, hxd]; rfl
          · omega
          · omega
        refine ih _ ?_ ?_ hxs'
        · cases rest with
          | nil => exact List.chain'_singleton _
          | cons r2 rest2 =>
            have hc2 := List.chain'_cons.mp hc
            exact List.chain'_cons.mpr ⟨hc2.1, hc2.2⟩
        · intro iv h
          rcases List.mem_cons.mp h with h' | h'
          · subst h'; exact hcanon
          · exact hel iv (List.mem_cons_of_mem _ h')

theorem sortedClamped_canon (xs : List Interval) :
    ∀ iv ∈ sortedClamped xs, canonIvl iv := by
  intro iv hmem
  rw [sortedClamped, List.mem_mergeSort, List.mem_filter] at hmem
  obtain ⟨hmem, hlt⟩ := hmem
  rw [List.mem_map] at hmem
  obtain ⟨iv0, _, rfl⟩ := hmem
  rw [jsLt_eq_true_iff] at hlt
  obtain ⟨a, b, ha, hb, hab⟩ := hlt
  refine ⟨a, b, ha, hb, ?_, hab, ?_⟩
  · revert ha
    show jsMax (some 0) iv0.start = some a → 0 ≤ a
    cases h0 : iv0.start with
    | none => intro h; exact absurd h (by simp [jsMax])
    | some a0 =>
      intro h
      simp only [jsMax, Option.some.injEq] at h
      omega
  · revert hb
    show jsMin (some 1440) iv0.stop = some b → b ≤ 1440
    cases h0 : iv0.stop with
    | none => intro h; exact absurd h (by simp [jsMin])
    | some b0 =>
      intro h
      simp only [jsMin, Option.some.injEq] at h
      omega

theorem normalizeIntervals_canon (xs : List Interval) :
    List.Chain' (fun u v => sepB u v = true) (normalizeIntervals xs) ∧
    (∀ iv ∈ normalizeIntervals xs, canonIvl iv) := by
  have h := foldl_mergeInto_canon (sortedClamped xs) [] List.chain'_nil
    (by intro iv h; simp at h) (sortedClamped_canon xs)
  rw [normalizeIntervals]
  constructor
  · rw [List.chain'_reverse]
    exact h.1
  · intro iv hiv
    rw [List.mem_reverse] at hiv
    exact h.2 iv hiv

/-- C5: the output of `normalizeIntervals` is pairwise separated
(`end` strictly before the next `start`, hence strictly increasing in
`start`) with every interval proper and clamped into [0, 1440];
touching intervals merge to the max end while separated ones stay
apart, as on the two example inputs. -/
theorem normalizeIntervals_sorted_disjoint :
    (∀ xs : List Interval,
      List.Pairwise (fun u v => sepB u v = true) (normalizeIntervals xs) ∧
      List.Pairwise (fun u v => jsLt u.start v.start = true) (normalizeIntervals xs) ∧
      (∀ iv ∈ normalizeIntervals xs, canonIvl iv)) ∧
    normalizeIntervals [⟨some 0, some 60⟩, ⟨some 60, some 120⟩] = [⟨some 0, some 120⟩] ∧
    normalizeIntervals [⟨some 0, some 30⟩, ⟨some 40, some 60⟩] =
      [⟨some 0, some 30⟩, ⟨some 40, some 60⟩] := by
  refine ⟨?_, ?_, ?_⟩
  · intro xs
    obtain ⟨hch, hcanon⟩ := normalizeIntervals_canon xs
    have hlt : ∀ iv ∈ normalizeIntervals xs, jsLt iv.start iv.stop = true := by
      intro iv h
      obtain ⟨a, b, ha, hb, _, hab, _⟩ := hcanon iv h
      rw [jsLt_eq_true_iff]
      exact ⟨a, b, ha, hb, hab⟩
    have hpair := chain'_sepB_pairwise _ hch hlt
    refine ⟨hpair, ?_, hcanon⟩
    refine hpair.imp_of_mem ?_
    intro u v hu hv hsep
    rw [sepB, jsLt_eq_true_iff] at hsep
    obtain ⟨p, q, hup, hvq, hpq⟩ := hsep
    obtain ⟨a, b, ha, hb, _, hab, _⟩ := hcanon u hu
    rw [hup] at hb
    injection hb with e
    rw [jsLt_eq_true_iff]
    exact ⟨a, q, ha, hvq, by omega⟩
  · rw [normalizeIntervals,
      show sortedClamped [⟨some 0, some 60⟩, ⟨some 60, some 120⟩]
          = List.mergeSort [⟨some 0, some 60⟩, ⟨some 60, some 120⟩] sortLe from rfl,
      List.mergeSort_of_sorted (by decide)]
    decide
  · rw [normalizeIntervals,
      show sortedClamped [⟨some 0, some 30⟩, ⟨some 40, some 60⟩]
          = List.mergeSort [⟨some 0, some 30⟩, ⟨some 40, some 60⟩] sortLe from rfl,
      List.mergeSort_of_sorted (by decide)]
    decide

theorem foldl_mergeInto_of_chain : ∀ (l : List Interval) (a : Interval) (rest : List Interval),
    List.Chain' (fun u v => sepB u v = true) (a :: l) →
    l.foldl mergeInto (a :: rest) = l.reverse ++ a :: rest := by
  intro l
  induction l with
  | nil => intro a rest _; rfl
  | cons b l ih =>
    intro a rest hc
    have hab : sepB a b = true := (List.chain'_cons.mp hc).1
    have hm : mergeInto (a :: rest) b = b :: a :: rest := by
      simp only [mergeInto]
      rw [if_pos (show jsGt b.start a.stop = true from hab)]
    rw [List.foldl_cons, hm, ih b (a :: rest) (List.chain'_cons.mp hc).2]
    simp [List.reverse_cons, List.append_assoc]

theorem foldl_mergeInto_nil_of_chain (l : List Interval)
    (hc : List.Chain' (fun u v => sepB u v = true) l) :
    l.foldl mergeInto [] = l.reverse := by
  cases l with
  | nil => rfl
  | cons a l =>
    rw [List.foldl_cons]
    show l.foldl mergeInto [a] = _
    rw [foldl_mergeInto_of_chain l a [] hc]
    simp

/-- A list already in canonical normalized shape is a fixed point of
`normalizeIntervals`. -/
theorem normalizeIntervals_fixed (l : List Interval)
    (hel : ∀ iv ∈ l, canonIvl iv)
    (hc : List.Chain' (fun u v => sepB u v = true) l) :
    normalizeIntervals l = l := by
  have hlt : ∀ iv ∈ l, jsLt iv.start iv.stop = true := by
    intro iv h
    obtain ⟨a, b, ha, hb, _, hab, _⟩ := hel iv h
    rw [jsLt_eq_true_iff]
    exact ⟨a, b, ha, hb, hab⟩
  have hf1 : l.filter (fun iv => jsLt iv.start iv.stop) = l := List.filter_eq_self.mpr hlt
  have hmap : l.map (fun iv =>
      (⟨jsMax (some 0) iv.start, jsMin (some 1440) iv.stop⟩ : Interval)) = l := by
    conv_rhs => rw [← List.map_id l]
    apply List.map_congr_left
    intro iv h
    obtain ⟨a, b, ha, hb, h0, hab, h14⟩ := hel iv h
    have e1 : jsMax (some 0) iv.start = iv.start := by
      rw [ha]
      simp [jsMax, max_eq_right h0]
    have e2 : jsMin (some 1440) iv.stop = iv.stop := by
      rw [hb]
      simp [jsMin, min_eq_right h14]
    rw [e1, e2]
    rfl
  have hpair : List.Pairwise (fun a b => sortLe a b = true) l := by
    have hp := chain'_sepB_pairwise l hc hlt
    refine hp.imp_of_mem ?_
    intro u v hu hv hsep
    obtain ⟨a, b, ha, hb, _, hab, _⟩ := hel u hu
    obtain ⟨c2, d2, hc2, hd2, _, hcd, _⟩ := hel v hv
    unfold sepB at hsep
    rw [jsLt_eq_true_iff] at hsep
    obtain ⟨p, q, hup, hvq, hpq⟩ := hsep
    rw [hb] at hup
    injection hup with e1
    rw [hc2] at hvq
    injection hvq with e2
    unfold sortLe
    rw [ha, hc2]
    show decide (a ≤ c2) = true
    simp only [decide_eq_true_eq]
    omega
  rw [normalizeIntervals, sortedClamped, hf1, hmap, hf1, List.mergeSort_of_sorted hpair,
    foldl_mergeInto_nil_of_chain l hc, List.reverse_reverse]

/-- C6: `normalizeIntervals` is idempotent. -/
theorem normalizeIntervals_idempotent (xs : List Interval) :
    normalizeIntervals (normalizeIntervals xs) = normalizeIntervals xs := by
  obtain ⟨hch, hcanon⟩ := normalizeIntervals_canon xs
  exact normalizeIntervals_fixed _ hcanon hch

/-! ### C7: the all-day schedule is never hidden -/

/-- C7: when every one of the seven days holds exactly the single
interval [0, 1440) and the timezone is valid, the scanner returns
`false` for every creation instant and now: every sampled minute lies in
[0, 1439] and is therefore inside the all-day window. -/
theorem allDay_schedule_never_hidden (createdAt : Int) (schedule : Schedule) (z : Zone)
    (nowUtc : Int) (hz : z.valid = true)
    (hs : ∀ d, d < 7 → schedule.windowsPerDay d = some [⟨some 0, some 1440⟩]) :
    hasEverEnteredHiddenSinceCreation createdAt schedule z nowUtc = false := by
  have hvis : ∀ t : Int, sampleVisible schedule z t = true := by
    intro t
    have hd : (if (z.localize t).weekday % 7 = 0 then 0 else (z.localize t).weekday % 7) < 7 := by
      have h7 : (z.localize t).weekday % 7 < 7 := Nat.mod_lt _ (by omega)
      split <;> omega
    obtain ⟨hw1, hw2, hh, hm⟩ := z.wf t
    simp only [sampleVisible, hz, if_true, hs _ hd, Option.getD_some, List.any_cons,
      List.any_nil, Bool.or_false, jsGe, jsLt, Bool.and_eq_true, decide_eq_true_eq]
    omega
  simp [hasEverEnteredHiddenSinceCreation, hvis]

/-- A concrete all-day-every-day schedule. -/
def allDaySched : Schedule :=
  ⟨1, fun d => if d < 7 then some [⟨some 0, some 1440⟩] else none⟩

/-- Closed instance of C7. -/
theorem allDay_schedule_never_hidden_witness :
    hasEverEnteredHiddenSinceCreation 0 allDaySched (clockZone 2 13 0) 99999 = false :=
  allDay_schedule_never_hidden 0 allDaySched (clockZone 2 13 0) 99999 rfl
    (by intro d hd; simp [allDaySched, hd])

/-! ### C3: what the parser accepts and rejects -/

theorem except_isOk_ok {ε β : Type} (b : β) : (Except.ok b : Except ε β).isOk = true := rfl

theorem except_isOk_error {ε β : Type} (e : ε) : (Except.error e : Except ε β).isOk = false := rfl

/-- A slot is supplied when both of its text fields are non-empty
(JS truthiness of `s && e`). -/
def slotSupplied (body : RawBody) (d r : Nat) : Bool :=
  body.slotStart d r ≠ "" && body.slotEnd d r ≠ ""

/-- The exact rejection condition of a slot, read off the source: a
supplied slot whose start or end parses to null, or whose two numeric
values are out of order. -/
def slotRejected (body : RawBody) (d r : Nat) : Bool :=
  slotSupplied body d r &&
    (hhmmToMinutes (body.slotStart d r) == HM.null ||
     hhmmToMinutes (body.slotEnd d r) == HM.null ||
     jsGe (hhmmToMinutes (body.slotStart d r)).toNum (hhmmToMinutes (body.slotEnd d r)).toNum)

/-- Success predicate of the whole form: every non-all-day weekday has
no rejected slot. -/
def bodyAccepted (body : RawBody) : Bool :=
  (List.range 7).all (fun d =>
    body.allDay d || [1, 2, 3].all (fun r => !slotRejected body d r))

theorem parseSlot_isOk (body : RawBody) (d r : Nat) (acc : List Interval) :
    (parseSlot body d r acc).isOk = !slotRejected body d r := by
  rw [parseSlot, slotRejected]
  by_cases hs : (body.slotStart d r ≠ "" && body.slotEnd d r ≠ "") = true
  · have hsup : slotSupplied body d r = true := hs
    rw [if_pos hs, hsup, Bool.true_and]
    by_cases h1 : (hhmmToMinutes (body.slotStart d r) == HM.null
        || hhmmToMinutes (body.slotEnd d r) == HM.null) = true
    · rw [if_pos h1, except_isOk_error]
      rcases Bool.or_eq_true_iff.mp h1 with h | h <;> simp [h]
    · rw [if_neg h1]
      rw [Bool.not_eq_true, Bool.or_eq_false_iff] at h1
      by_cases h2 : jsGe (hhmmToMinutes (body.slotStart d r)).toNum
          (hhmmToMinutes (body.slotEnd d r)).toNum = true
      · rw [if_pos h2, except_isOk_error]
        simp [h1.1, h1.2, h2]
      · rw [if_neg h2, except_isOk_ok]
        rw [Bool.not_eq_true] at h2
        simp [h1.1, h1.2, h2]
  · have hsup : slotSupplied body d r = false := by
      rw [Bool.not_eq_true] at hs
      exact hs
    rw [if_neg hs, hsup, Bool.false_and, except_isOk_ok, Bool.not_false]

theorem parseSlot_error (body : RawBody) (d r : Nat) (acc : List Interval) (msg : String)
    (h : parseSlot body d r acc = Except.error msg) :
    slotRejected body d r = true ∧ (msg = invalidTimeMsg d r ∨ msg = invalidIntervalMsg d r) := by
  have hrej : slotRejected body d r = true := by
    have hok := parseSlot_isOk body d r acc
    rw [h, except_isOk_error] at hok
    cases hb : slotRejected body d r
    · rw [hb] at hok
      exact absurd hok (by simp)
    · rfl
  refine ⟨hrej, ?_⟩
  rw [parseSlot] at h
  by_cases hs : (body.slotStart d r ≠ "" && body.slotEnd d r ≠ "") = true
  · rw [if_pos hs] at h
    by_cases h1 : (hhmmToMinutes (body.slotStart d r) == HM.null
        || hhmmToMinutes (body.slotEnd d r) == HM.null) = true
    · rw [if_pos h1] at h
      injection h with e
      exact Or.inl e.symm
    · rw [if_neg h1] at h
      by_cases h2 : jsGe (hhmmToMinutes (body.slotStart d r)).toNum
          (hhmmToMinutes (body.slotEnd d r)).toNum = true
      · rw [if_pos h2] at h
        injection h with e
        exact Or.inr e.symm
      · rw [if_neg h2] at h
        exact absurd h (by simp)
  · rw [if_neg hs] at h
    exact absurd h (by simp)

theorem parseSlot_ok_of_not_rejected (body : RawBody) (d r : Nat) (acc : List Interval)
    (h : slotRejected body d r = false) :
    parseSlot body d r acc = Except.ok (acc ++
      (if slotSupplied body d r then
        [(⟨(hhmmToMinutes (body.slotStart d r)).toNum,
           (hhmmToMinutes (body.slotEnd d r)).toNum⟩ : Interval)]
      else [])) := by
  rw [parseSlot]
  rw [slotRejected] at h
  by_cases hs : (body.slotStart d r ≠ "" && body.slotEnd d r ≠ "") = true
  · have hsup : slotSupplied body d r = true := hs
    rw [hsup, Bool.true_and] at h
    rw [Bool.or_eq_false_iff] at h
    rw [if_pos hs, if_neg (by simp [h.1]), if_neg (by simp [h.2]), hsup, if_pos rfl]
  · have hsup : slotSupplied body d r = false := by
      rw [Bool.not_eq_true] at hs
      exact hs
    rw [if_neg hs, hsup]
    simp

theorem except_bind_ok {ε α β : Type} (a : α) (f : α → Except ε β) :
    (Except.ok a : Except ε α) >>= f = f a := rfl

theorem except_bind_error {ε α β : Type} (e : ε) (f : α → Except ε β) :
    (Except.error e : Except ε α) >>= f = Except.error e := rfl

theorem except_pure {ε β : Type} (b : β) : (pure b : Except ε β) = Except.ok b := rfl

theorem except_map_isOk {ε α β : Type} (g : α → β) (x : Except ε α) :
    (Except.map g x).isOk = x.isOk := by cases x <;> rfl

theorem except_map_error {ε α β : Type} (g : α → β) (x : Except ε α) (msg : ε)
    (h : Except.map g x = Except.error msg) : x = Except.error msg := by
  cases x with
  | error e => cases h; rfl
  | ok a => exact absurd h (by simp [Except.map])

theorem except_bind_pure_isOk {ε α β : Type} (x : Except ε α) (h : α → β) :
    (x >>= fun a => (pure (h a) : Except ε β)).isOk = x.isOk := by cases x <;> rfl

theorem slotRejected_false_of_ok (body : RawBody) (d r : Nat) (acc a : List Interval)
    (h : parseSlot body d r acc = Except.ok a) : slotRejected body d r = false := by
  have hok := parseSlot_isOk body d r acc
  rw [h, except_isOk_ok] at hok
  cases hb : slotRejected body d r
  · rfl
  · rw [hb] at hok
    exact absurd hok (by simp)

theorem parseDay_isOk (body : RawBody) (d : Nat) :
    (parseDay body d).isOk
      = (body.allDay d || [1, 2, 3].all (fun r => !slotRejected body d r)) := by
  rw [parseDay]
  by_cases ha : body.allDay d = true
  · rw [if_pos ha, ha, Bool.true_or, except_isOk_ok]
  · rw [if_neg ha]
    rw [Bool.not_eq_true] at ha
    rw [ha, Bool.false_or]
    show (parseSlot body d 1 [] >>= fun a1 => parseSlot body d 2 a1 >>=
      fun a2 => parseSlot body d 3 a2).isOk = _
    cases h1 : parseSlot body d 1 [] with
    | error m =>
      rw [except_bind_error, except_isOk_error]
      have hr1 := (parseSlot_error body d 1 [] m h1).1
      simp [hr1]
    | ok a1 =>
      rw [except_bind_ok]
      have hr1 := slotRejected_false_of_ok body d 1 [] a1 h1
      cases h2 : parseSlot body d 2 a1 with
      | error m =>
        rw [except_bind_error, except_isOk_error]
        have hr2 := (parseSlot_error body d 2 a1 m h2).1
        simp [hr2]
      | ok a2 =>
        rw [except_bind_ok]
        have hr2 := slotRejected_false_of_ok body d 2 a1 a2 h2
        cases h3 : parseSlot body d 3 a2 with
        | error m =>
          rw [except_isOk_error]
          have hr3 := (parseSlot_error body d 3 a2 m h3).1
          simp [hr3]
        | ok a3 =>
          rw [except_isOk_ok]
          have hr3 := slotRejected_false_of_ok body d 3 a2 a3 h3
          simp [hr1, hr2, hr3]

theorem parseDay_error (body : RawBody) (d : Nat) (msg : String)
    (h : parseDay body d = Except.error msg) :
    ∃ r, 1 ≤ r ∧ r ≤ 3 ∧ slotRejected body d r = true ∧
      (msg = invalidTimeMsg d r ∨ msg = invalidIntervalMsg d r) := by
  rw [parseDay] at h
  by_cases ha : body.allDay d = true
  · rw [if_pos ha] at h
    exact absurd h (by simp)
  · rw [if_neg ha] at h
    have h' : (parseSlot body d 1 [] >>= fun a1 => parseSlot body d 2 a1 >>=
        fun a2 => parseSlot body d 3 a2) = Except.error msg := h
    cases h1 : parseSlot body d 1 [] with
    | error m =>
      rw [h1, except_bind_error] at h'
      injection h' with e
      subst e
      obtain ⟨hr, hm⟩ := parseSlot_error body d 1 [] m h1
      exact ⟨1, by omega, by omega, hr, hm⟩
    | ok a1 =>
      rw [h1, except_bind_ok] at h'
      cases h2 : parseSlot body d 2 a1 with
      | error m =>
        rw [h2, except_bind_error] at h'
        injection h' with e
        subst e
        obtain ⟨hr, hm⟩ := parseSlot_error body d 2 a1 m h2
        exact ⟨2, by omega, by omega, hr, hm⟩
      | ok a2 =>
        rw [h2, except_bind_ok] at h'
        obtain ⟨hr, hm⟩ := parseSlot_error body d 3 a2 msg h'
        exact ⟨3, by omega, by omega, hr, hm⟩

theorem mapM_except_isOk {ε α β : Type} (f : α → Except ε β) : ∀ l : List α,
    (l.mapM f).isOk = l.all (fun a => (f a).isOk) := by
  intro l
  induction l with
  | nil => rfl
  | cons x l ih =>
    rw [List.mapM_cons]
    cases hx : f x with
    | error e =>
      rw [except_bind_error, except_isOk_error, List.all_cons, hx, except_isOk_error,
        Bool.false_and]
    | ok b =>
      rw [except_bind_ok, List.all_cons, hx, except_isOk_ok, Bool.true_and, ← ih]
      cases hl : l.mapM f with
      | error e => rfl
      | ok bs => rfl

theorem mapM_except_error {ε α β : Type} (f : α → Except ε β) : ∀ (l : List α) (msg : ε),
    l.mapM f = Except.error msg → ∃ a ∈ l, f a = Except.error msg := by
  intro l
  induction l with
  | nil =>
    intro msg h
    rw [List.mapM_nil] at h
    exact absurd h (by simp [except_pure])
  | cons x l ih =>
    intro msg h
    rw [List.mapM_cons] at h
    cases hx : f x with
    | error e =>
      rw [hx, except_bind_error] at h
      injection h with e2
      subst e2
      exact ⟨x, List.mem_cons_self x l, hx⟩
    | ok b =>
      rw [hx, except_bind_ok] at h
      cases hl : l.mapM f with
      | error e2 =>
        rw [hl, except_bind_error] at h
        injection h with e3
        subst e3
        obtain ⟨a, ha, hfa⟩ := ih e2 hl
        exact ⟨a, List.mem_cons_of_mem _ ha, hfa⟩
      | ok bs =>
        rw [hl, except_bind_ok] at h
        exact absurd h (by simp [except_pure])

theorem mapM_except_ok_of {ε α β : Type} (f : α → Except ε β) (g : α → β) :
    ∀ l : List α, (∀ a ∈ l, f a = Except.ok (g a)) → l.mapM f = Except.ok (l.map g) := by
  intro l
  induction l with
  | nil => intro _; rfl
  | cons x l ih =>
    intro hall
    rw [List.mapM_cons, hall x (List.mem_cons_self x l), except_bind_ok,
      ih (fun a ha => hall a (List.mem_cons_of_mem _ ha)), except_bind_ok]
    rfl

theorem parse_isOk_eq_bodyAccepted (body : RawBody) :
    (parseScheduleFromBody body).isOk = bodyAccepted body := by
  rw [parseScheduleFromBody]
  show ((List.range 7).mapM (fun d => (parseDay body d).map normalizeIntervals) >>=
    fun days => (pure ⟨1, fun d => days.get? d⟩ : Except String Schedule)).isOk
    = bodyAccepted body
  rw [except_bind_pure_isOk, mapM_except_isOk]
  rw [show (fun d => ((parseDay body d).map normalizeIntervals).isOk)
      = fun d => (body.allDay d || [1, 2, 3].all (fun r => !slotRejected body d r)) from
    funext fun d => by rw [except_map_isOk, parseDay_isOk]]
  rfl

/-- C3 (amended): the parser fails exactly when some supplied slot of a
non-all-day weekday is rejected — a component whose `hhmmToMinutes` is
null (no leading digit after the optional sign, or hour/minute out of
range), or two numeric components out of order — and the error message
then names the offending day and slot with the source's
`Invalid time for ... interval ...` or `... start must be before end`
text.  (The original claim's "component not an integer implies
InvalidTimeFormat" is weaker than the code: `parseInt` accepts integer
prefixes and a colon-free in-range hour yields NaN, a silently dropped
slot.) -/
theorem parse_rejects_exactly_bad_slots :
    (∀ body, (parseScheduleFromBody body).isOk = bodyAccepted body) ∧
    (∀ body msg, parseScheduleFromBody body = Except.error msg →
      ∃ d r, d < 7 ∧ 1 ≤ r ∧ r ≤ 3 ∧ slotRejected body d r = true ∧
        (msg = invalidTimeMsg d r ∨ msg = invalidIntervalMsg d r)) := by
  refine ⟨parse_isOk_eq_bodyAccepted, ?_⟩
  intro body msg h
  rw [parseScheduleFromBody] at h
  have h' : ((List.range 7).mapM (fun d => (parseDay body d).map normalizeIntervals) >>=
      fun days => (pure ⟨1, fun d => days.get? d⟩ : Except String Schedule))
      = Except.error msg := h
  cases hX : (List.range 7).mapM (fun d => (parseDay body d).map normalizeIntervals) with
  | error e =>
    rw [hX, except_bind_error] at h'
    injection h' with e2
    subst e2
    obtain ⟨d, hd, hFd⟩ := mapM_except_error _ _ e hX
    have hday := except_map_error normalizeIntervals (parseDay body d) e hFd
    obtain ⟨r, hr1, hr3, hrej, hm⟩ := parseDay_error body d e hday
    exact ⟨d, r, List.mem_range.mp hd, hr1, hr3, hrej, hm⟩
  | ok days =>
    rw [hX, except_bind_ok] at h'
    exact absurd h' (by simp [except_pure])

/-- A body whose Sunday slot 1 is `25:00`-`02:00`. -/
def badHourBody : RawBody :=
  ⟨fun _ => false,
   fun d r => if d == 0 && r == 1 then "25:00" else "",
   fun d r => if d == 0 && r == 1 then "02:00" else ""⟩

/-- Closed instance of C3 (amended): the out-of-range hour `25:00` in
Sunday slot 1 makes the parser fail with the message naming Sunday and
slot 1. -/
theorem parse_rejects_exactly_bad_slots_witness :
    ∃ d r, d < 7 ∧ 1 ≤ r ∧ r ≤ 3 ∧ slotRejected badHourBody d r = true ∧
      ("Invalid time for Sunday interval 1." = invalidTimeMsg d r ∨
       "Invalid time for Sunday interval 1." = invalidIntervalMsg d r) :=
  parse_rejects_exactly_bad_slots.2 badHourBody "Invalid time for Sunday interval 1." rfl

/-- A body whose Sunday slot 1 start is the non-integer string `1a:30`
(end `02:00`). -/
def garbageStartBody : RawBody :=
  ⟨fun _ => false,
   fun d r => if d == 0 && r == 1 then "1a:30" else "",
   fun d r => if d == 0 && r == 1 then "02:00" else ""⟩

/-- C3 counterexample: the supplied start component `1a:30` is not an
integer `HH:MM` pair, yet the parser does not fail — `parseInt` reads
the integer prefix `1`, so the slot is accepted as 01:30-02:00. -/
theorem parse_accepts_noninteger_component :
    (parseScheduleFromBody garbageStartBody).isOk = true ∧
    Except.map (fun s => s.windowsPerDay 0) (parseScheduleFromBody garbageStartBody)
      = Except.ok (some [⟨some 90, some 120⟩]) := by
  have hn1 : normalizeIntervals [(⟨some 90, some 120⟩ : Interval)] = [⟨some 90, some 120⟩] := by
    refine normalizeIntervals_fixed _ ?_ (List.chain'_singleton _)
    intro iv h
    rw [List.mem_singleton] at h
    subst h
    exact ⟨90, 120, rfl, rfl, by omega, by omega, by omega⟩
  have hn0 : normalizeIntervals ([] : List Interval) = [] :=
    normalizeIntervals_fixed _ (by intro iv h; simp at h) List.chain'_nil
  have hdays : (List.range 7).mapM
      (fun d => (parseDay garbageStartBody d).map normalizeIntervals)
      = Except.ok ((List.range 7).map
        (fun d => if d == 0 then [(⟨some 90, some 120⟩ : Interval)] else [])) := by
    refine mapM_except_ok_of _ _ _ ?_
    intro d hd
    fin_cases hd
    · show Except.ok (normalizeIntervals [(⟨some 90, some 120⟩ : Interval)])
        = Except.ok [(⟨some 90, some 120⟩ : Interval)]
      rw [hn1]
    all_goals
      show Except.ok (normalizeIntervals ([] : List Interval)) = Except.ok ([] : List Interval)
    all_goals rw [hn0]
  have hparse : parseScheduleFromBody garbageStartBody = Except.ok
      ⟨1, fun d => ((List.range 7).map
        (fun d => if d == 0 then [(⟨some 90, some 120⟩ : Interval)] else [])).get? d⟩ := by
    rw [parseScheduleFromBody]
    show ((List.range 7).mapM
        (fun d => (parseDay garbageStartBody d).map normalizeIntervals) >>=
      fun days => (pure ⟨1, fun d => days.get? d⟩ : Except String Schedule)) = _
    rw [hdays, except_bind_ok]
    rfl
  rw [hparse]
  exact ⟨rfl, rfl⟩

/-! ### C8: parse/display round-trip -/

theorem splitColonAux_no_colon : ∀ (q acc : List Char), (∀ c ∈ q, c ≠ ':') →
    splitColonAux q acc = [acc.reverse ++ q] := by
  intro q
  induction q with
  | nil => intro acc _; simp [splitColonAux]
  | cons c q ih =>
    intro acc h
    rw [splitColonAux, if_neg (h c (List.mem_cons_self c q)),
      ih (c :: acc) (fun x hx => h x (List.mem_cons_of_mem _ hx))]
    simp

theorem splitColonAux_split : ∀ (p acc q : List Char), (∀ c ∈ p, c ≠ ':') →
    splitColonAux (p ++ ':' :: q) acc = (acc.reverse ++ p) :: splitColonAux q [] := by
  intro p
  induction p with
  | nil =>
    intro acc q _
    rw [List.nil_append, splitColonAux, if_pos rfl]
    simp
  | cons c p ih =>
    intro acc q h
    rw [List.cons_append, splitColonAux, if_neg (h c (List.mem_cons_self c p)),
      ih (c :: acc) q (fun x hx => h x (List.mem_cons_of_mem _ hx))]
    simp

/-- Component facts for two-digit zero-padded rendering of 0..99: it
parses back to the same number, contains no colon, and is non-empty. -/
theorem pad2_parse : ∀ n ∈ List.range 100,
    jsParseInt (padStart2 (toString (n : Int))) = some (n : Int) ∧
    (padStart2 (toString (n : Int))).data.all (fun c => decide (c ≠ ':')) = true ∧
    (padStart2 (toString (n : Int))).data ≠ [] := by decide

theorem hm_decomp (hq mq : Int) (hh : 0 ≤ hq) (hm1 : 0 ≤ mq) (hm2 : mq ≤ 59) :
    Int.fdiv (hq * 60 + mq) 60 = hq ∧ Int.tmod (hq * 60 + mq) 60 = mq := by
  constructor
  · rw [Int.fdiv_eq_ediv _ (by omega : (0 : Int) ≤ 60)]
    omega
  · rw [Int.tmod_eq_emod (by omega) (by omega)]
    omega

theorem minutesToHHMM_data (v : Int) :
    (minutesToHHMM (some v)).data
      = (padStart2 (toString (Int.fdiv v 60))).data ++
        ':' :: (padStart2 (toString (Int.tmod v 60))).data := by
  rw [minutesToHHMM]
  rw [String.data_append, String.data_append]
  rw [show (":" : String).data = [':'] from rfl, List.append_assoc]
  rfl

/-- Parsing inverts rendering on every in-range wall-clock minute
count. -/
theorem hhmm_round (hq mq : Nat) (hh : hq ≤ 23) (hm : mq ≤ 59) :
    hhmmToMinutes (minutesToHHMM (some ((hq : Int) * 60 + mq)))
      = HM.val ((hq : Int) * 60 + mq) := by
  obtain ⟨ed, em⟩ := hm_decomp (hq : Int) (mq : Int) (by omega) (by omega) (by omega)
  obtain ⟨hp1, hp2, hp3⟩ := pad2_parse hq (List.mem_range.mpr (by omega))
  obtain ⟨hq1, hq2, hq3⟩ := pad2_parse mq (List.mem_range.mpr (by omega))
  have hpc : ∀ c ∈ (padStart2 (toString ((hq : Nat) : Int))).data, c ≠ ':' := by
    intro c hc
    have := List.all_eq_true.mp hp2 c hc
    simpa using this
  have hqc : ∀ c ∈ (padStart2 (toString ((mq : Nat) : Int))).data, c ≠ ':' := by
    intro c hc
    have := List.all_eq_true.mp hq2 c hc
    simpa using this
  rw [hhmmToMinutes, minutesToHHMM_data, ed, em,
    splitColonAux_split _ [] _ hpc, splitColonAux_no_colon _ [] hqc]
  simp only [List.reverse_nil, List.nil_append]
  show (match jsParseInt (String.mk (padStart2 (toString ((hq : Nat) : Int))).data),
      jsParseInt (String.mk (padStart2 (toString ((mq : Nat) : Int))).data) with
    | none, _ => HM.null
    | some _, none => HM.null
    | some h, some m =>
      if h < 0 || h > 23 || m < 0 || m > 59 then HM.null
      else HM.val (h * 60 + m)) = HM.val ((hq : Int) * 60 + mq)
  rw [show String.mk (padStart2 (toString ((hq : Nat) : Int))).data
      = padStart2 (toString ((hq : Nat) : Int)) from rfl,
    show String.mk (padStart2 (toString ((mq : Nat) : Int))).data
      = padStart2 (toString ((mq : Nat) : Int)) from rfl,
    hp1, hq1]
  show (if (hq : Int) < 0 || (hq : Int) > 23 || (mq : Int) < 0 || (mq : Int) > 59
      then HM.null else HM.val ((hq : Int) * 60 + mq)) = HM.val ((hq : Int) * 60 + mq)
  rw [if_neg]
  simp only [Bool.or_eq_true, decide_eq_true_eq, not_or]
  refine ⟨⟨⟨by omega, by omega⟩, by omega⟩, by omega⟩

theorem hhmm_round_val (v : Int) (h0 : 0 ≤ v) (h14 : v ≤ 1439) :
    hhmmToMinutes (minutesToHHMM (some v)) = HM.val v := by
  have e : ((v.toNat / 60 : Nat) : Int) * 60 + ((v.toNat % 60 : Nat) : Int) = v := by omega
  rw [← e]
  exact hhmm_round (v.toNat / 60) (v.toNat % 60) (by omega) (by omega)

theorem minutesToHHMM_ne_empty (v : Int) : minutesToHHMM (some v) ≠ "" := by
  intro h
  have hdata : (minutesToHHMM (some v)).data = [] := by rw [h]
  rw [minutesToHHMM_data] at hdata
  exact absurd hdata (by simp)

/-- The supplied (start, end) text pairs of a day, in slot order. -/
def suppliedPairs (body : RawBody) (d : Nat) : List (String × String) :=
  ([1, 2, 3].filter (fun r => slotSupplied body d r)).map
    (fun r => (body.slotStart d r, body.slotEnd d r))

/-- The interval list a canonical slot value contributes. -/
def ivlOf : Option (Int × Int) → List Interval
  | none => []
  | some p => [⟨some p.1, some p.2⟩]

theorem slot_facts (body : RawBody) (d r : Nat) (o : Option (Int × Int))
    (ho : match o with
      | none => slotSupplied body d r = false
      | some p => body.slotStart d r = minutesToHHMM (some p.1) ∧
          body.slotEnd d r = minutesToHHMM (some p.2) ∧
          0 ≤ p.1 ∧ p.1 < p.2 ∧ p.2 ≤ 1439) :
    slotRejected body d r = false ∧
    (∀ acc, parseSlot body d r acc = Except.ok (acc ++ ivlOf o)) ∧
    slotSupplied body d r = o.isSome := by
  cases o with
  | none =>
    have hsup : slotSupplied body d r = false := ho
    have hrej : slotRejected body d r = false := by
      rw [slotRejected, hsup, Bool.false_and]
    refine ⟨hrej, ?_, hsup⟩
    intro acc
    rw [parseSlot_ok_of_not_rejected body d r acc hrej, hsup]
    simp [ivlOf]
  | some p =>
    obtain ⟨hst, hen, h0, hlt, h14⟩ := ho
    have hr1 : hhmmToMinutes (body.slotStart d r) = HM.val p.1 := by
      rw [hst]
      exact hhmm_round_val p.1 h0 (by omega)
    have hr2 : hhmmToMinutes (body.slotEnd d r) = HM.val p.2 := by
      rw [hen]
      exact hhmm_round_val p.2 (by omega) h14
    have hsup : slotSupplied body d r = true := by
      rw [slotSupplied, hst, hen]
      simp [minutesToHHMM_ne_empty]
    have hrej : slotRejected body d r = false := by
      rw [slotRejected, hsup, Bool.true_and, hr1, hr2]
      simp only [HM.toNum, jsGe]
      simp only [show (HM.val p.1 == HM.null) = false from rfl,
        show (HM.val p.2 == HM.null) = false from rfl, Bool.or_self, Bool.false_or]
      simp only [decide_eq_false_iff_not]
      omega
    refine ⟨hrej, ?_, hsup⟩
    intro acc
    rw [parseSlot_ok_of_not_rejected body d r acc hrej, hsup, if_pos rfl, hr1, hr2]
    rfl

theorem parseDay_canonical (body : RawBody) (d : Nat) (f : Nat → Option (Int × Int))
    (hall : body.allDay d = false)
    (hslots : ∀ r ∈ [1, 2, 3], (match f r with
      | none => slotSupplied body d r = false
      | some p => body.slotStart d r = minutesToHHMM (some p.1) ∧
          body.slotEnd d r = minutesToHHMM (some p.2) ∧
          0 ≤ p.1 ∧ p.1 < p.2 ∧ p.2 ≤ 1439)) :
    parseDay body d = Except.ok (ivlOf (f 1) ++ ivlOf (f 2) ++ ivlOf (f 3)) := by
  have s1 := slot_facts body d 1 (f 1) (hslots 1 (by simp))
  have s2 := slot_facts body d 2 (f 2) (hslots 2 (by simp))
  have s3 := slot_facts body d 3 (f 3) (hslots 3 (by simp))
  rw [parseDay, if_neg (by simp [hall])]
  show (parseSlot body d 1 [] >>= fun a1 => parseSlot body d 2 a1 >>=
    fun a2 => parseSlot body d 3 a2) = _
  rw [s1.2.1 [], except_bind_ok, s2.2.1 _, except_bind_ok, s3.2.1 _]
  simp [List.append_assoc]

theorem filterMap_three (f : Nat → Option (Int × Int)) :
    ([1, 2, 3].filterMap f).map (fun p => (⟨some p.1, some p.2⟩ : Interval))
      = ivlOf (f 1) ++ ivlOf (f 2) ++ ivlOf (f 3) := by
  cases h1 : f 1 <;> cases h2 : f 2 <;> cases h3 : f 3 <;>
    simp [List.filterMap_cons, h1, h2, h3, ivlOf]

theorem norm_day (f : Nat → Option (Int × Int))
    (hb : ∀ r ∈ [1, 2, 3], ∀ p, f r = some p → 0 ≤ p.1 ∧ p.1 < p.2 ∧ p.2 ≤ 1439)
    (hch : List.Chain' (fun p q => p.2 < q.1) ([1, 2, 3].filterMap f)) :
    normalizeIntervals (([1, 2, 3].filterMap f).map
        (fun p => (⟨some p.1, some p.2⟩ : Interval)))
      = ([1, 2, 3].filterMap f).map (fun p => (⟨some p.1, some p.2⟩ : Interval)) := by
  apply normalizeIntervals_fixed
  · intro iv h
    rw [List.mem_map] at h
    obtain ⟨p, hp, rfl⟩ := h
    rw [List.mem_filterMap] at hp
    obtain ⟨r, hr, hfr⟩ := hp
    obtain ⟨h0, hlt, h14⟩ := hb r hr p hfr
    exact ⟨p.1, p.2, rfl, rfl, h0, hlt, by omega⟩
  · rw [List.chain'_map]
    refine hch.imp ?_
    intro p q hpq
    show sepB ⟨some p.1, some p.2⟩ ⟨some q.1, some q.2⟩ = true
    unfold sepB
    rw [jsLt_eq_true_iff]
    exact ⟨p.2, q.1, rfl, rfl, hpq⟩

theorem day_display (body : RawBody) (d : Nat) (f : Nat → Option (Int × Int))
    (hsup : ∀ r ∈ [1, 2, 3], slotSupplied body d r = (f r).isSome)
    (hstr : ∀ r ∈ [1, 2, 3], ∀ p, f r = some p →
      body.slotStart d r = minutesToHHMM (some p.1) ∧
      body.slotEnd d r = minutesToHHMM (some p.2)) :
    (([1, 2, 3].filterMap f).map (fun p => (⟨some p.1, some p.2⟩ : Interval))).map
        (fun iv => (⟨minutesToHHMM iv.start, minutesToHHMM iv.stop⟩ : DisplayInterval))
      = (suppliedPairs body d).map (fun p => (⟨p.1, p.2⟩ : DisplayInterval)) := by
  have hs1 := hsup 1 (by simp)
  have hs2 := hsup 2 (by simp)
  have hs3 := hsup 3 (by simp)
  rw [suppliedPairs]
  cases h1 : f 1 <;> cases h2 : f 2 <;> cases h3 : f 3 <;>
    rw [h1] at hs1 <;> rw [h2] at hs2 <;> rw [h3] at hs3 <;>
      simp_all [List.filterMap_cons, List.filter_cons,
        fun p => hstr 1 (by simp) p, fun p => hstr 2 (by simp) p, fun p => hstr 3 (by simp) p]

/-- C8: on a form whose supplied slots are canonical zero-padded HH:MM
pairs, in order, proper, and separated within each day (already
normalized, non-overlapping), with no all-day flag, parsing succeeds
and `scheduleToDisplayRows` reproduces the original input strings
verbatim, day by day and slot by slot. -/
theorem parse_display_roundtrip (body : RawBody) (vals : Nat → Nat → Option (Int × Int))
    (hall : ∀ d, d < 7 → body.allDay d = false)
    (hslot : ∀ d, d < 7 → ∀ r ∈ [1, 2, 3],
      (match vals d r with
       | none => slotSupplied body d r = false
       | some p => body.slotStart d r = minutesToHHMM (some p.1) ∧
           body.slotEnd d r = minutesToHHMM (some p.2) ∧
           0 ≤ p.1 ∧ p.1 < p.2 ∧ p.2 ≤ 1439))
    (hsorted : ∀ d, d < 7 →
      List.Chain' (fun p q => p.2 < q.1) ([1, 2, 3].filterMap (vals d))) :
    ∃ s, parseScheduleFromBody body = Except.ok s ∧
      scheduleToDisplayRows s = (List.range 7).map (fun d =>
        ⟨d, DAY_NAMES.getD d "",
          (suppliedPairs body d).map (fun p => (⟨p.1, p.2⟩ : DisplayInterval))⟩) := by
  have hdays : (List.range 7).mapM (fun d => (parseDay body d).map normalizeIntervals)
      = Except.ok ((List.range 7).map (fun d =>
        ([1, 2, 3].filterMap (vals d)).map (fun p => (⟨some p.1, some p.2⟩ : Interval)))) := by
    refine mapM_except_ok_of _ _ _ ?_
    intro d hd
    have hd7 := List.mem_range.mp hd
    rw [parseDay_canonical body d (vals d) (hall d hd7) (hslot d hd7)]
    show Except.ok (normalizeIntervals (ivlOf (vals d 1) ++ ivlOf (vals d 2) ++
      ivlOf (vals d 3))) = _
    rw [← filterMap_three (vals d), norm_day (vals d) ?_ (hsorted d hd7)]
    intro r hr p hfr
    have hfact := hslot d hd7 r hr
    rw [hfr] at hfact
    exact ⟨hfact.2.2.1, hfact.2.2.2.1, hfact.2.2.2.2⟩
  refine ⟨⟨1, fun d => (((List.range 7).map (fun d =>
    ([1, 2, 3].filterMap (vals d)).map
      (fun p => (⟨some p.1, some p.2⟩ : Interval)))).get? d)⟩, ?_, ?_⟩
  · rw [parseScheduleFromBody]
    show ((List.range 7).mapM (fun d => (parseDay body d).map normalizeIntervals) >>=
      fun days => (pure ⟨1, fun d => days.get? d⟩ : Except String Schedule)) = _
    rw [hdays, except_bind_ok]
    rfl
  · rw [scheduleToDisplayRows]
    apply List.map_congr_left
    intro d hd
    have hd7 := List.mem_range.mp hd
    have hwd : (((((List.range 7).map (fun d =>
        ([1, 2, 3].filterMap (vals d)).map
          (fun p => (⟨some p.1, some p.2⟩ : Interval)))).get? d)).getD [])
        = ([1, 2, 3].filterMap (vals d)).map
          (fun p => (⟨some p.1, some p.2⟩ : Interval)) := by
      rw [List.get?_map, List.get?_range hd7]
      rfl
    show (⟨d, DAY_NAMES.getD d "", _⟩ : DisplayRow) = _
    rw [hwd]
    rw [day_display body d (vals d) ?_ ?_]
    · intro r hr
      have hfact := hslot d hd7 r hr
      exact (slot_facts body d r (vals d r) hfact).2.2
    · intro r hr p hfr
      have hfact := hslot d hd7 r hr
      rw [hfr] at hfact
      exact ⟨hfact.1, hfact.2.1⟩

/-- A form with the single supplied slot Sunday 1 = 13:00-17:00. -/
def roundtripBody : RawBody :=
  ⟨fun _ => false,
   fun d r => if d == 0 && r == 1 then "13:00" else "",
   fun d r => if d == 0 && r == 1 then "17:00" else ""⟩

/-- The slot values of `roundtripBody`. -/
def roundtripVals : Nat → Nat → Option (Int × Int) :=
  fun d r => if d == 0 && r == 1 then some (780, 1020) else none

/-- Closed instance of C8 on `roundtripBody`. -/
theorem parse_display_roundtrip_witness :
    ∃ s, parseScheduleFromBody roundtripBody = Except.ok s ∧
      scheduleToDisplayRows s = (List.range 7).map (fun d =>
        ⟨d, DAY_NAMES.getD d "",
          (suppliedPairs roundtripBody d).map (fun p => (⟨p.1, p.2⟩ : DisplayInterval))⟩) := by
  refine parse_display_roundtrip roundtripBody roundtripVals ?_ ?_ ?_
  · intro d _
    rfl
  · intro d hd r hr
    interval_cases d <;> fin_cases hr
    · exact ⟨rfl, rfl, by omega, by omega, by omega⟩
    all_goals exact rfl
  · intro d hd
    interval_cases d
    · exact List.chain'_singleton _
    all_goals exact List.chain'_nil

end Sched
